import Mathlib

/-!
# Verification of the AI chat-log summarizer core (src/task.py)

Strings are modelled as `List Char` (a string literal `s` is embedded as
`s.data`); the transcripts the program processes are ASCII text, and the
character classes below are the ASCII restrictions of Python's.

The pipeline of `src/task.py` is:
* `parse_chat_log` — regex `(User:|AI:)(.*?)(?=(User:|AI:|$))` over the file
  content, whitespace-normalising each message body and grouping by speaker;
* `message_statistics` — counts;
* `extract_keywords_and_topic` — sklearn `TfidfVectorizer` (unigrams,
  `max_features=top_k`) for the keyword list and `CountVectorizer`
  (`ngram_range=(2,2)`) for the topic bigram, both with the NLTK English
  stopword list, `lowercase=True` and `token_pattern=r'\b[a-zA-Z]{2,}\b'`;
* `generate_summary` — fixed-format rendering over
  `chat_data['User'] + chat_data['AI']`.

The sklearn vectorizers are an external library; their behaviour is embedded
here following their documented semantics: features are tokenised after
lowercasing with the token pattern, stop words are removed from the token
stream *before* n-gram windows are formed, `max_features` keeps the top
features by term frequency across the corpus (a single document here),
feature names are reported in ascending lexicographic order, and `fit` /
`fit_transform` raise `ValueError("empty vocabulary ...")` when no feature
survives.  Fallible steps therefore return `Except`.
-/

set_option maxHeartbeats 1000000
set_option maxRecDepth 100000

namespace ChatLog

/-- ASCII whitespace as recognised by Python's `str.split()` / `str.strip()`. -/
def isWS (c : Char) : Bool :=
  c = ' ' || c = '\t' || c = '\n' || c = '\r' || c = '\x0b' || c = '\x0c'

/-- Split a character stream into the maximal runs of characters satisfying
`keep`, discarding separator characters.  `acc` holds the current run in
reverse.  With `keep = (!isWS ·)` this is Python's `str.split()` with no
argument. -/
def runsAux (keep : Char → Bool) : List Char → List Char → List (List Char)
  | [], [] => []
  | [], acc => [acc.reverse]
  | c :: cs, acc =>
    if keep c then runsAux keep cs (c :: acc)
    else
      match acc with
      | [] => runsAux keep cs []
      | _ :: _ => acc.reverse :: runsAux keep cs []

def runs (keep : Char → Bool) (s : List Char) : List (List Char) :=
  runsAux keep s []

/-- Python `str.split()` (no argument): whitespace-separated words, empties
dropped. -/
def pySplit (s : List Char) : List (List Char) :=
  runs (fun c => !isWS c) s

/-- Python `' '.join(ws)`. -/
def joinSpaces : List (List Char) → List Char
  | [] => []
  | [w] => w
  | w :: ws => w ++ ' ' :: joinSpaces ws

/-- `' '.join(message.strip().split())` from `parse_chat_log` (task.py line
29; the `.strip()` is redundant given `split()` with no argument). -/
def normalizeWS (s : List Char) : List Char :=
  joinSpaces (pySplit s)

/-- The literal speaker marker `User:`. -/
def userTag : List Char := "User:".data

/-- The literal speaker marker `AI:`. -/
def aiTag : List Char := "AI:".data

/-- Does a marker start at the head of `s`?  Mirrors the regex alternation
`(User:|AI:)` (the two markers can never both match at one position).
Returns the speaker (`true` = User) and the characters after the marker. -/
def tagAt (s : List Char) : Option (Bool × List Char) :=
  if userTag.isPrefixOf s then some (true, s.drop 5)
  else if aiTag.isPrefixOf s then some (false, s.drop 3)
  else none

/-- Occurrence of `pat` as a contiguous substring of the text — used to
state "the text contains no `User:` / `AI:` marker". -/
def containsSeq (pat : List Char) : List Char → Bool
  | [] => pat.isEmpty
  | c :: cs => pat.isPrefixOf (c :: cs) || containsSeq pat cs

/-- Scan forward to the first marker occurrence, as the regex engine does
when looking for the next match; text before the marker is discarded. -/
def findTag : List Char → Option (Bool × List Char)
  | [] => none
  | c :: cs =>
    match tagAt (c :: cs) with
    | some r => some r
    | none => findTag cs

/-- The raw body of one block: the characters up to (not including) the next
marker, together with the remainder starting at that marker.  This is the
lazy `(.*?)` with lookahead `(?=(User:|AI:|$))`: the `$` alternative can also
stop the body just before a final newline of the text, but that dropped
character is whitespace and is erased by the subsequent normalisation, so the
body is taken to the next marker or to the end of text. -/
def takeBody : List Char → List Char × List Char
  | [] => ([], [])
  | c :: cs =>
    if (tagAt (c :: cs)).isSome then ([], c :: cs)
    else
      let p := takeBody cs
      (c :: p.1, p.2)

theorem isPrefixOf_length_le : ∀ {l₁ l₂ : List Char},
    l₁.isPrefixOf l₂ = true → l₁.length ≤ l₂.length := by
  intro l₁
  induction l₁ with
  | nil =>
    intro l₂ _
    simp
  | cons a as ih =>
    intro l₂ h
    cases l₂ with
    | nil => simp [List.isPrefixOf] at h
    | cons b bs =>
      simp only [List.isPrefixOf, Bool.and_eq_true] at h
      simp only [List.length_cons]
      have := ih h.2
      omega

theorem tagAt_length {s : List Char} {sp : Bool} {rest : List Char}
    (h : tagAt s = some (sp, rest)) : rest.length + 3 ≤ s.length := by
  unfold tagAt at h
  split at h
  · next hp =>
    have hle : (5 : Nat) ≤ s.length := by
      have := isPrefixOf_length_le hp
      rw [show userTag.length = 5 from rfl] at this
      exact this
    simp only [Option.some.injEq, Prod.mk.injEq] at h
    have hr : rest = s.drop 5 := h.2.symm
    subst hr
    simp only [List.length_drop]
    omega
  · split at h
    · next hp =>
      have hle : (3 : Nat) ≤ s.length := by
        have := isPrefixOf_length_le hp
        rw [show aiTag.length = 3 from rfl] at this
        exact this
      simp only [Option.some.injEq, Prod.mk.injEq] at h
      have hr : rest = s.drop 3 := h.2.symm
      subst hr
      simp only [List.length_drop]
      omega
    · exact absurd h (by simp)

theorem findTag_length : ∀ {s : List Char} {sp : Bool} {rest : List Char},
    findTag s = some (sp, rest) → rest.length < s.length := by
  intro s
  induction s with
  | nil => intro sp rest h; simp [findTag] at h
  | cons c cs ih =>
    intro sp rest h
    unfold findTag at h
    cases htag : tagAt (c :: cs) with
    | some r =>
      rw [htag] at h
      simp only [Option.some.injEq] at h
      subst h
      have := tagAt_length htag
      omega
    | none =>
      rw [htag] at h
      simp only at h
      have := ih h
      simp only [List.length_cons]
      omega

theorem takeBody_length : ∀ s : List Char, (takeBody s).2.length ≤ s.length := by
  intro s
  induction s with
  | nil => simp [takeBody]
  | cons c cs ih =>
    unfold takeBody
    split
    · simp
    · simp only [List.length_cons]
      omega

/-- One `findall` step per unit of fuel: find the next marker, slice the
body, continue after it.  The recursion is on fuel so that the function
reduces by iota in the kernel; `findTag_length` and `takeBody_length` show
every step strictly shrinks the remaining text, so `length + 1` fuel is
always enough (`findBlocksF_fuel` below makes this exact). -/
def findBlocksF : Nat → List Char → List (Bool × List Char)
  | 0, _ => []
  | fuel + 1, s =>
    match findTag s with
    | none => []
    | some (sp, rest) =>
      (sp, (takeBody rest).1) :: findBlocksF fuel (takeBody rest).2

/-- All `(speaker, raw body)` blocks of the text, in order of appearance:
the full `findall` of the block regex. -/
def findBlocks (s : List Char) : List (Bool × List Char) :=
  findBlocksF (s.length + 1) s

theorem findBlocksF_congr : ∀ (f1 f2 : Nat) (s : List Char),
    s.length < f1 → s.length < f2 → findBlocksF f1 s = findBlocksF f2 s := by
  intro f1
  induction f1 with
  | zero =>
    intro f2 s h1 _
    exact absurd h1 (Nat.not_lt_zero _)
  | succ g ih =>
    intro f2 s h1 h2
    cases f2 with
    | zero => exact absurd h2 (Nat.not_lt_zero _)
    | succ k =>
      rw [findBlocksF, findBlocksF]
      cases htag : findTag s with
      | none => rfl
      | some r =>
        obtain ⟨sp, rest⟩ := r
        have hlt : (takeBody rest).2.length < s.length :=
          lt_of_le_of_lt (takeBody_length rest) (findTag_length htag)
        show (sp, (takeBody rest).1) :: findBlocksF g (takeBody rest).2 =
          (sp, (takeBody rest).1) :: findBlocksF k (takeBody rest).2
        rw [ih k (takeBody rest).2 (by omega) (by omega)]

/-- Any fuel beyond the text length computes the same block list: the fuel
in `findBlocks` is immaterial. -/
theorem findBlocksF_fuel (fuel : Nat) (s : List Char) (h : s.length < fuel) :
    findBlocksF fuel s = findBlocks s :=
  findBlocksF_congr fuel (s.length + 1) s h (Nat.lt_succ_self _)

/-- The blocks with normalised bodies, empty bodies dropped — the per-match
work of the loop in `parse_chat_log` (task.py lines 26–31), still in the
original order of appearance. -/
def cleanBlocks (content : List Char) : List (Bool × List Char) :=
  (findBlocks content).filterMap fun b =>
    if (normalizeWS b.2).isEmpty then none else some (b.1, normalizeWS b.2)

/-- `parse_chat_log` (task.py lines 13–33) on already-loaded text: the
messages grouped by speaker, as the pair (User messages, AI messages); each
group keeps the original relative order of its blocks. -/
def parse_chat_log (content : List Char) : List (List Char) × List (List Char) :=
  ((cleanBlocks content).filterMap fun b => if b.1 then some b.2 else none,
   (cleanBlocks content).filterMap fun b => if b.1 then none else some b.2)

/-- `message_statistics` (task.py lines 35–42): `(total, user, ai)` counts. -/
def message_statistics (chat : List (List Char) × List (List Char)) :
    Nat × Nat × Nat :=
  (chat.1.length + chat.2.length, chat.1.length, chat.2.length)

/-- ASCII letter. -/
def isAlpha (c : Char) : Bool :=
  ('a' ≤ c && c ≤ 'z') || ('A' ≤ c && c ≤ 'Z')

/-- Python regex word character `\w`, ASCII restriction: letter, digit or
underscore (the transcripts are ASCII). -/
def isWordChar (c : Char) : Bool :=
  isAlpha c || ('0' ≤ c && c ≤ '9') || c = '_'

/-- The sklearn analyzer's tokenisation: lowercase (`lowercase=True`), then
`findall` of `token_pattern=r'\b[a-zA-Z]{2,}\b'`.  A match needs a word
boundary `\b` on both sides, and inside a maximal run of word characters
there is no boundary, so the matches are exactly the maximal word-character
runs that consist solely of letters and have length ≥ 2 (a run containing a
digit or underscore yields no token at all). -/
def tokenize (s : List Char) : List (List Char) :=
  (runs isWordChar (s.map Char.toLower)).filter
    fun r => 2 ≤ r.length && r.all isAlpha

/-- The NLTK English stopword list (`stopwords.words('english')`, loaded at
task.py lines 9–11): an external data resource, transcribed verbatim. -/
def STOP_WORDS : List (List Char) :=
  ["i", "me", "my", "myself", "we", "our", "ours", "ourselves", "you",
   "you\x27re", "you\x27ve", "you\x27ll", "you\x27d", "your", "yours",
   "yourself", "yourselves", "he", "him", "his", "himself", "she",
   "she\x27s", "her", "hers", "herself", "it", "it\x27s", "its", "itself",
   "they", "them", "their", "theirs", "themselves", "what", "which", "who",
   "whom", "this", "that", "that\x27ll", "these", "those", "am", "is",
   "are", "was", "were", "be", "been", "being", "have", "has", "had",
   "having", "do", "does", "did", "doing", "a", "an", "the", "and", "but",
   "if", "or", "because", "as", "until", "while", "of", "at", "by", "for",
   "with", "about", "against", "between", "into", "through", "during",
   "before", "after", "above", "below", "to", "from", "up", "down", "in",
   "out", "on", "off", "over", "under", "again", "further", "then", "once",
   "here", "there", "when", "where", "why", "how", "all", "any", "both",
   "each", "few", "more", "most", "other", "some", "such", "no", "nor",
   "not", "only", "own", "same", "so", "than", "too", "very", "s", "t",
   "can", "will", "just", "don", "don\x27t", "should", "should\x27ve",
   "now", "d", "ll", "m", "o", "re", "ve", "y", "ain", "aren",
   "aren\x27t", "couldn", "couldn\x27t", "didn", "didn\x27t", "doesn",
   "doesn\x27t", "hadn", "hadn\x27t", "hasn", "hasn\x27t", "haven",
   "haven\x27t", "isn", "isn\x27t", "ma", "mightn", "mightn\x27t",
   "mustn", "mustn\x27t", "needn", "needn\x27t", "shan", "shan\x27t",
   "shouldn", "shouldn\x27t", "wasn", "wasn\x27t", "weren", "weren\x27t",
   "won", "won\x27t", "wouldn", "wouldn\x27t"].map String.data

/-- Stop-word removal from the token stream.  The sklearn analyzer removes
stop words right after tokenisation, *before* n-gram windows are formed. -/
def filterStop (toks : List (List Char)) : List (List Char) :=
  toks.filter fun t => !decide (t ∈ STOP_WORDS)

/-- Strict lexicographic order on character lists (Python string `<`). -/
def lexLt : List Char → List Char → Bool
  | [], [] => false
  | [], _ :: _ => true
  | _ :: _, [] => false
  | a :: as, b :: bs => a < b || (a = b && lexLt as bs)

/-- Insertion into a lexicographically sorted duplicate-free list. -/
def insVocab (x : List Char) : List (List Char) → List (List Char)
  | [] => [x]
  | y :: ys =>
    if lexLt x y then x :: y :: ys
    else if x = y then y :: ys
    else y :: insVocab x ys

/-- The distinct features of a token stream in ascending lexicographic
order: the fitted vectorizer vocabulary as reported by
`get_feature_names_out()` (sklearn keeps the feature axis sorted). -/
def vocabOf (toks : List (List Char)) : List (List Char) :=
  toks.foldr insVocab []

/-- Insertion into a list sorted by the boolean comparator `le`. -/
def insOrd (le : α → α → Bool) (x : α) : List α → List α
  | [] => [x]
  | y :: ys => if le x y then x :: y :: ys else y :: insOrd le x ys

/-- Insertion sort by `le`. -/
def isort (le : α → α → Bool) : List α → List α
  | [] => []
  | x :: xs => insOrd le x (isort le xs)

/-- Non-strict lexicographic comparator. -/
def lexLe (a b : List Char) : Bool := !lexLt b a

/-- Sort a feature list into ascending lexicographic order. -/
def sortLex (l : List (List Char)) : List (List Char) := isort lexLe l

/-- The `max_features` selection order: descending term frequency within the
(single) document, ties by ascending lexicographic order of the term — the
argsort of the negated counts over the alphabetically sorted feature axis. -/
def rankLe (toks : List (List Char)) (a b : List Char) : Bool :=
  toks.count b < toks.count a || (toks.count a == toks.count b && lexLe a b)

/-- `TfidfVectorizer(max_features=k)` feature selection over one document:
if at most `k` distinct features exist they are all kept, otherwise the `k`
most frequent are kept (ties to the lexicographically smaller term), and the
surviving vocabulary is reported in ascending lexicographic order. -/
def topFeatures (k : Nat) (toks : List (List Char)) : List (List Char) :=
  let terms := vocabOf toks
  if terms.length ≤ k then terms
  else sortLex ((isort (rankLe toks) terms).take k)

/-- All adjacent two-token windows of a token stream, each pair joined by a
single space — the analyzer's `ngram_range=(2,2)` output for one document. -/
def bigramsOf : List (List Char) → List (List Char)
  | a :: b :: rest => (a ++ ' ' :: b) :: bigramsOf (b :: rest)
  | _ => []

/-- `np.argmax` over the counts of the features `fs` (with running best
`best`): the first feature attaining the maximal count wins, and since the
feature axis is sorted this is the lexicographically least most-frequent
feature. -/
def argmaxCount (bs : List (List Char)) : List (List Char) → List Char → List Char
  | [], best => best
  | f :: fs, best =>
    if bs.count best < bs.count f then argmaxCount bs fs f
    else argmaxCount bs fs best

/-- The most frequent bigram: `bigram_features[bigram_counts.argmax()]`
(task.py lines 81–82).  The `[]` branch is unreachable when the bigram list
is non-empty. -/
def mainBigram (bs : List (List Char)) : List Char :=
  match vocabOf bs with
  | [] => []
  | f :: fs => argmaxCount bs fs f

/-- The stop-word-filtered unigram token stream of `' '.join(texts)` — the
surviving-token stream both vectorizers analyse. -/
def toksOf (texts : List (List Char)) : List (List Char) :=
  filterStop (tokenize (joinSpaces texts))

/-- `extract_keywords_and_topic` (task.py lines 44–86).  `Except.error`
models the `ValueError("empty vocabulary ...")` that sklearn's
`TfidfVectorizer.fit` (line 64) and `CountVectorizer.fit_transform`
(line 75) raise when no feature survives in the document; the tfidf fit
runs first, so an empty unigram vocabulary errors before bigrams are
formed.  `bigram_counts.sum() > 0` (line 79) is the total number of bigram
occurrences, i.e. `(bigramsOf (toksOf texts)).length > 0`; its else branch
(`keywords[0] if keywords else ''`, line 84) is kept although it is
unreachable, since `fit_transform` has already errored whenever no bigram
occurs. -/
def extract_keywords_and_topic (texts : List (List Char)) (top_k : Nat) :
    Except String (List (List Char) × List Char) :=
  if texts.isEmpty then Except.ok ([], [])
  else if (toksOf texts).isEmpty then Except.error "empty vocabulary"
  else if (bigramsOf (toksOf texts)).isEmpty then Except.error "empty vocabulary"
  else
    Except.ok (topFeatures top_k (toksOf texts),
      if 0 < (bigramsOf (toksOf texts)).length then
        mainBigram (bigramsOf (toksOf texts))
      else (topFeatures top_k (toksOf texts)).headD [])

/-- The argument `generate_summary` passes to the extractor (task.py line
94): all User messages first, then all AI messages. -/
def combinedTexts (chat : List (List Char) × List (List Char)) :
    List (List Char) :=
  chat.1 ++ chat.2

/-- The keyword/topic stage of the full per-file pipeline (task.py lines
92–95, `top_k = 5`) on one file's already-loaded content. -/
def pipelineExtract (content : List Char) :
    Except String (List (List Char) × List Char) :=
  extract_keywords_and_topic (combinedTexts (parse_chat_log content)) 5

/-- Spec-side definition, for comparison only (spec §4.3 step 1): "tokenize
into maximal runs of alphabetic characters of length ≥ 2 (non-alphabetic
characters, digits, and single-letter tokens are discarded as token
boundaries)" — under this reading a digit adjacent to letters still yields
the alphabetic run as a token. -/
def specTokenize (s : List Char) : List (List Char) :=
  (runs isAlpha (s.map Char.toLower)).filter fun r => 2 ≤ r.length

/-- Spec-side definition, for comparison only (spec §4.3 contract): "the
concatenation of all utterance texts for a transcript (User and AI
combined, in their segmented order)" — the normalised non-empty bodies in
the original order the blocks appear in the transcript. -/
def blockOrderTexts (content : List Char) : List (List Char) :=
  (cleanBlocks content).map fun b => b.2

/-- The concrete transcript of the mountains scenario (spec §8). -/
def mountainsInput : List Char :=
  "User: I love hiking in the mountains. AI: Hiking in the mountains is great exercise. User: I agree, mountains are beautiful.".data

/-! Order facts about lexLt -/

theorem lexLt_irrefl : ∀ a : List Char, lexLt a a = false := by
  intro a
  induction a with
  | nil => rfl
  | cons c cs ih => simp [lexLt, ih]

theorem lexLt_trans : ∀ {a b c : List Char},
    lexLt a b = true → lexLt b c = true → lexLt a c = true := by
  intro a
  induction a with
  | nil =>
    intro b c hab hbc
    cases b with
    | nil => simp [lexLt] at hab
    | cons y ys =>
      cases c with
      | nil => simp [lexLt] at hbc
      | cons z zs => simp [lexLt]
  | cons x xs ih =>
    intro b c hab hbc
    cases b with
    | nil => simp [lexLt] at hab
    | cons y ys =>
      cases c with
      | nil => simp [lexLt] at hbc
      | cons z zs =>
        simp only [lexLt, Bool.or_eq_true, Bool.and_eq_true,
          decide_eq_true_eq] at hab hbc ⊢
        rcases hab with hxy | ⟨hxy, hxs⟩
        · rcases hbc with hyz | ⟨hyz, hys⟩
          · exact Or.inl (lt_trans hxy hyz)
          · exact Or.inl (hyz ▸ hxy)
        · rcases hbc with hyz | ⟨hyz, hys⟩
          · exact Or.inl (hxy ▸ hyz)
          · exact Or.inr ⟨hxy.trans hyz, ih hxs hys⟩

theorem lexLt_connex : ∀ {a b : List Char},
    lexLt a b = false → lexLt b a = false → a = b := by
  intro a
  induction a with
  | nil =>
    intro b hab _
    cases b with
    | nil => rfl
    | cons y ys => simp [lexLt] at hab
  | cons x xs ih =>
    intro b hab hba
    cases b with
    | nil => simp [lexLt] at hba
    | cons y ys =>
      simp only [lexLt, Bool.or_eq_false_iff, Bool.and_eq_false_iff,
        decide_eq_false_iff_not] at hab hba
      obtain ⟨hxy, hab2⟩ := hab
      obtain ⟨hyx, hba2⟩ := hba
      have hxy' : x = y := le_antisymm (not_lt.mp hyx) (not_lt.mp hxy)
      subst hxy'
      rcases hab2 with h | h
      · exact absurd rfl h
      · rcases hba2 with h2 | h2
        · exact absurd rfl h2
        · rw [ih h h2]

theorem lexLt_asymm {a b : List Char} (h : lexLt a b = true) :
    lexLt b a = false := by
  by_contra hba
  have := lexLt_trans h (Bool.not_eq_false _ ▸ hba)
  rw [lexLt_irrefl] at this
  exact Bool.false_ne_true this

theorem lexLe_refl (a : List Char) : lexLe a a = true := by
  simp [lexLe, lexLt_irrefl]

theorem lexLe_total (a b : List Char) :
    lexLe a b = true ∨ lexLe b a = true := by
  cases h : lexLt b a
  · exact Or.inl (by simp [lexLe, h])
  · exact Or.inr (by simp [lexLe, lexLt_asymm h])

theorem lexLe_trans {a b c : List Char}
    (h1 : lexLe a b = true) (h2 : lexLe b c = true) : lexLe a c = true := by
  rw [lexLe, Bool.not_eq_true'] at h1 h2 ⊢
  cases hca : lexLt c a
  · rfl
  · exfalso
    cases hbc : lexLt b c
    · have hbceq : b = c := lexLt_connex hbc h2
      subst hbceq
      rw [hca] at h1
      exact Bool.noConfusion h1
    · have := lexLt_trans hbc hca
      rw [this] at h1
      exact Bool.noConfusion h1

theorem lexLt_of_lexLe_of_ne {a b : List Char}
    (h : lexLe a b = true) (hne : a ≠ b) : lexLt a b = true := by
  rw [lexLe, Bool.not_eq_true'] at h
  cases hab : lexLt a b
  · exact absurd (lexLt_connex hab h) hne
  · rfl

theorem lexLt_total_of_ne {a b : List Char} (hne : a ≠ b) :
    lexLt a b = true ∨ lexLt b a = true := by
  cases hab : lexLt a b
  · cases hba : lexLt b a
    · exact absurd (lexLt_connex hab hba) hne
    · exact Or.inr rfl
  · exact Or.inl rfl

/-! Insertion sort lemmas -/

theorem insOrd_perm {α : Type} (le : α → α → Bool) (x : α) :
    ∀ l : List α, List.Perm (insOrd le x l) (x :: l) := by
  intro l
  induction l with
  | nil => simp [insOrd]
  | cons y ys ih =>
    rw [insOrd]
    split
    · exact List.Perm.refl _
    · exact List.Perm.trans (List.Perm.cons y ih) (List.Perm.swap x y ys)

theorem isort_perm {α : Type} (le : α → α → Bool) :
    ∀ l : List α, List.Perm (isort le l) l := by
  intro l
  induction l with
  | nil => exact List.Perm.refl _
  | cons x xs ih =>
    exact List.Perm.trans (insOrd_perm le x (isort le xs)) (List.Perm.cons x ih)

theorem insOrd_pairwise {α : Type} {le : α → α → Bool}
    (htot : ∀ a b, le a b = true ∨ le b a = true)
    (htrans : ∀ {a b c}, le a b = true → le b c = true → le a c = true)
    (x : α) :
    ∀ {l : List α}, List.Pairwise (fun a b => le a b = true) l →
      List.Pairwise (fun a b => le a b = true) (insOrd le x l) := by
  intro l
  induction l with
  | nil =>
    intro _
    simp [insOrd]
  | cons y ys ih =>
    intro hp
    rw [insOrd]
    split
    · next hxy =>
      refine List.Pairwise.cons ?_ hp
      intro z hz
      rcases List.mem_cons.mp hz with rfl | hz'
      · exact hxy
      · exact htrans hxy ((List.pairwise_cons.mp hp).1 z hz')
    · next hxy =>
      have hyx : le y x = true := by
        rcases htot x y with h | h
        · exact absurd h hxy
        · exact h
      refine List.Pairwise.cons ?_ (ih (List.pairwise_cons.mp hp).2)
      intro z hz
      have hz' := (insOrd_perm le x ys).mem_iff.mp hz
      rcases List.mem_cons.mp hz' with rfl | hzys
      · exact hyx
      · exact (List.pairwise_cons.mp hp).1 z hzys

theorem isort_pairwise {α : Type} {le : α → α → Bool}
    (htot : ∀ a b, le a b = true ∨ le b a = true)
    (htrans : ∀ {a b c}, le a b = true → le b c = true → le a c = true) :
    ∀ l : List α, List.Pairwise (fun a b => le a b = true) (isort le l) := by
  intro l
  induction l with
  | nil => simp [isort]
  | cons x xs ih => exact insOrd_pairwise htot htrans x ih

theorem rankLe_total (toks : List (List Char)) (a b : List Char) :
    rankLe toks a b = true ∨ rankLe toks b a = true := by
  simp only [rankLe, Bool.or_eq_true, Bool.and_eq_true, decide_eq_true_eq,
    beq_iff_eq]
  rcases Nat.lt_trichotomy (toks.count a) (toks.count b) with h | h | h
  · exact Or.inr (Or.inl h)
  · rcases lexLe_total a b with hl | hl
    · exact Or.inl (Or.inr ⟨h, hl⟩)
    · exact Or.inr (Or.inr ⟨h.symm, hl⟩)
  · exact Or.inl (Or.inl h)

theorem rankLe_trans {toks : List (List Char)} {a b c : List Char}
    (h1 : rankLe toks a b = true) (h2 : rankLe toks b c = true) :
    rankLe toks a c = true := by
  simp only [rankLe, Bool.or_eq_true, Bool.and_eq_true, decide_eq_true_eq,
    beq_iff_eq] at h1 h2 ⊢
  rcases h1 with h1 | ⟨h1, h1l⟩
  · rcases h2 with h2 | ⟨h2, _⟩
    · exact Or.inl (by omega)
    · exact Or.inl (by omega)
  · rcases h2 with h2 | ⟨h2, h2l⟩
    · exact Or.inl (by omega)
    · exact Or.inr ⟨by omega, lexLe_trans h1l h2l⟩

/-! Vocabulary lemmas -/

theorem mem_insVocab {a x : List Char} :
    ∀ {l : List (List Char)}, a ∈ insVocab x l ↔ a = x ∨ a ∈ l := by
  intro l
  induction l with
  | nil => simp [insVocab]
  | cons y ys ih =>
    rw [insVocab]
    split
    · simp [List.mem_cons]
    · split
      · next h =>
        subst h
        simp only [List.mem_cons]
        constructor
        · intro hz
          exact Or.inr hz
        · rintro (rfl | hz)
          · exact Or.inl rfl
          · exact hz
      · simp only [List.mem_cons, ih]
        tauto

theorem insVocab_pairwise {x : List Char} :
    ∀ {l : List (List Char)},
      List.Pairwise (fun a b => lexLt a b = true) l →
      List.Pairwise (fun a b => lexLt a b = true) (insVocab x l) := by
  intro l
  induction l with
  | nil =>
    intro _
    simp [insVocab]
  | cons y ys ih =>
    intro hp
    rw [insVocab]
    split
    · next hxy =>
      refine List.Pairwise.cons ?_ hp
      intro z hz
      rcases List.mem_cons.mp hz with rfl | hz'
      · exact hxy
      · exact lexLt_trans hxy ((List.pairwise_cons.mp hp).1 z hz')
    · split
      · next h => exact hp
      · next hxy hne =>
        have hyx : lexLt y x = true := by
          rcases lexLt_total_of_ne hne with h | h
          · exact absurd h hxy
          · exact h
        refine List.Pairwise.cons ?_ (ih (List.pairwise_cons.mp hp).2)
        intro z hz
        rcases mem_insVocab.mp hz with rfl | hzys
        · exact hyx
        · exact (List.pairwise_cons.mp hp).1 z hzys

theorem vocabOf_pairwise (toks : List (List Char)) :
    List.Pairwise (fun a b => lexLt a b = true) (vocabOf toks) := by
  induction toks with
  | nil => simp [vocabOf]
  | cons t ts ih => exact insVocab_pairwise ih

theorem mem_vocabOf {a : List Char} :
    ∀ {toks : List (List Char)}, a ∈ vocabOf toks ↔ a ∈ toks := by
  intro toks
  induction toks with
  | nil => simp [vocabOf]
  | cons t ts ih =>
    show a ∈ insVocab t (vocabOf ts) ↔ _
    rw [mem_insVocab, ih, List.mem_cons]

theorem pairwise_lexLt_nodup {l : List (List Char)}
    (h : List.Pairwise (fun a b => lexLt a b = true) l) : l.Nodup := by
  refine h.imp ?_
  intro a b hab
  intro heq
  subst heq
  rw [lexLt_irrefl] at hab
  exact Bool.noConfusion hab

theorem vocabOf_nodup (toks : List (List Char)) : (vocabOf toks).Nodup :=
  pairwise_lexLt_nodup (vocabOf_pairwise toks)

theorem vocabOf_ne_nil {toks : List (List Char)} (h : toks ≠ []) :
    vocabOf toks ≠ [] := by
  cases toks with
  | nil => exact absurd rfl h
  | cons t ts =>
    intro hv
    have : t ∈ vocabOf (t :: ts) := mem_vocabOf.mpr (List.mem_cons_self t ts)
    rw [hv] at this
    exact List.not_mem_nil t this

/-! Keyword-selection lemmas -/

theorem sortLex_pairwise_of_nodup {l : List (List Char)} (h : l.Nodup) :
    List.Pairwise (fun a b => lexLt a b = true) (sortLex l) := by
  have hle : List.Pairwise (fun a b => lexLe a b = true) (sortLex l) :=
    isort_pairwise lexLe_total (fun h1 h2 => lexLe_trans h1 h2) l
  have hnd : (sortLex l).Nodup := h.perm (isort_perm lexLe l).symm
  refine (hle.and hnd).imp ?_
  intro a b hab
  exact lexLt_of_lexLe_of_ne hab.1 hab.2

theorem topFeatures_length (k : Nat) (toks : List (List Char)) :
    (topFeatures k toks).length ≤ k := by
  rw [topFeatures]
  split
  · next hlen => exact hlen
  · next hlen =>
    have h1 : (sortLex ((isort (rankLe toks) (vocabOf toks)).take k)).length
        = ((isort (rankLe toks) (vocabOf toks)).take k).length :=
      (isort_perm lexLe _).length_eq
    rw [h1, List.length_take]
    exact min_le_left _ _

theorem topFeatures_sorted (k : Nat) (toks : List (List Char)) :
    List.Pairwise (fun a b => lexLt a b = true) (topFeatures k toks) := by
  rw [topFeatures]
  split
  · exact vocabOf_pairwise toks
  · refine sortLex_pairwise_of_nodup ?_
    refine List.Nodup.sublist (List.take_sublist _ _) ?_
    exact (vocabOf_nodup toks).perm (isort_perm (rankLe toks) _).symm

theorem topFeatures_subset {k : Nat} {toks : List (List Char)}
    {w : List Char} (hw : w ∈ topFeatures k toks) : w ∈ toks := by
  rw [topFeatures] at hw
  split at hw
  · exact mem_vocabOf.mp hw
  · have h1 : w ∈ (isort (rankLe toks) (vocabOf toks)).take k :=
      (isort_perm lexLe _).mem_iff.mp hw
    have h2 : w ∈ isort (rankLe toks) (vocabOf toks) := List.mem_of_mem_take h1
    exact mem_vocabOf.mp ((isort_perm (rankLe toks) _).mem_iff.mp h2)

theorem topFeatures_dominates {k : Nat} {toks : List (List Char)}
    {w v : List Char} (hw : w ∈ topFeatures k toks) (hv : v ∈ toks)
    (hnv : v ∉ topFeatures k toks) : rankLe toks w v = true := by
  by_cases hlen : (vocabOf toks).length ≤ k
  · rw [topFeatures, if_pos hlen] at hnv
    exact absurd (mem_vocabOf.mpr hv) hnv
  · rw [topFeatures, if_neg hlen] at hw hnv
    have hw' : w ∈ (isort (rankLe toks) (vocabOf toks)).take k :=
      (isort_perm lexLe _).mem_iff.mp hw
    have hv1 : v ∈ isort (rankLe toks) (vocabOf toks) :=
      (isort_perm (rankLe toks) _).mem_iff.mpr (mem_vocabOf.mpr hv)
    have hv2 : v ∉ (isort (rankLe toks) (vocabOf toks)).take k := by
      intro hmem
      exact hnv ((isort_perm lexLe _).mem_iff.mpr hmem)
    have hv3 : v ∈ (isort (rankLe toks) (vocabOf toks)).drop k := by
      rcases List.mem_append.mp
        ((List.take_append_drop k (isort (rankLe toks) (vocabOf toks))) ▸ hv1)
        with h | h
      · exact absurd h hv2
      · exact h
    have hp : List.Pairwise (fun a b => rankLe toks a b = true)
        (isort (rankLe toks) (vocabOf toks)) :=
      isort_pairwise (rankLe_total toks) (fun h1 h2 => rankLe_trans h1 h2) _
    have hp' := (List.take_append_drop k
      (isort (rankLe toks) (vocabOf toks))) ▸ hp
    exact (List.pairwise_append.mp hp').2.2 w hw' v hv3

/-! Topic-selection (argmax) lemmas -/

theorem lexLe_of_lexLt {a b : List Char} (h : lexLt a b = true) :
    lexLe a b = true := by
  simp [lexLe, lexLt_asymm h]

theorem argmaxCount_spec (bs : List (List Char)) :
    ∀ (fs : List (List Char)) (best : List Char),
      List.Pairwise (fun a b => lexLt a b = true) (best :: fs) →
      argmaxCount bs fs best ∈ best :: fs ∧
      ∀ g ∈ best :: fs,
        bs.count g < bs.count (argmaxCount bs fs best) ∨
        (bs.count g = bs.count (argmaxCount bs fs best) ∧
         lexLe (argmaxCount bs fs best) g = true) := by
  intro fs
  induction fs with
  | nil =>
    intro best _
    refine ⟨List.mem_cons_self _ _, ?_⟩
    intro g hg
    rcases List.mem_cons.mp hg with rfl | h
    · exact Or.inr ⟨rfl, lexLe_refl g⟩
    · exact absurd h (List.not_mem_nil g)
  | cons f fs ih =>
    intro best hp
    rw [argmaxCount]
    split
    · next hlt =>
      have hpf : List.Pairwise (fun a b => lexLt a b = true) (f :: fs) :=
        (List.pairwise_cons.mp hp).2
      obtain ⟨hmem, hdom⟩ := ih f hpf
      refine ⟨List.mem_cons_of_mem _ hmem, ?_⟩
      intro g hg
      rcases List.mem_cons.mp hg with rfl | hg'
      · rcases hdom f (List.mem_cons_self f fs) with h | h
        · exact Or.inl (by omega)
        · exact Or.inl (by omega)
      · exact hdom g hg'
    · next hge =>
      have hbf : lexLt best f = true :=
        (List.pairwise_cons.mp hp).1 f (List.mem_cons_self f fs)
      have hpb : List.Pairwise (fun a b => lexLt a b = true) (best :: fs) := by
        refine List.Pairwise.cons ?_ (List.pairwise_cons.mp
          (List.pairwise_cons.mp hp).2).2
        intro z hz
        exact (List.pairwise_cons.mp hp).1 z (List.mem_cons_of_mem f hz)
      obtain ⟨hmem, hdom⟩ := ih best hpb
      constructor
      · rcases List.mem_cons.mp hmem with heq | h
        · rw [heq]
          exact List.mem_cons_self _ _
        · exact List.mem_cons_of_mem _ (List.mem_cons_of_mem _ h)
      · intro g hg
        have hfb : bs.count f ≤ bs.count best := Nat.not_lt.mp hge
        rcases List.mem_cons.mp hg with rfl | hg'
        · exact hdom g (List.mem_cons_self _ _)
        · rcases List.mem_cons.mp hg' with rfl | hg''
          · rcases hdom best (List.mem_cons_self _ _) with h | h
            · exact Or.inl (by omega)
            · rcases Nat.lt_or_ge (bs.count g) (bs.count best) with hc | hc
              · exact Or.inl (by omega)
              · have hceq : bs.count g = bs.count best := by omega
                refine Or.inr ⟨by omega, ?_⟩
                exact lexLe_trans h.2 (lexLe_of_lexLt hbf)
          · exact hdom g (List.mem_cons_of_mem _ hg'')

theorem mainBigram_spec {bs : List (List Char)} (hne : bs ≠ []) :
    mainBigram bs ∈ bs ∧
    ∀ g ∈ bs,
      bs.count g < bs.count (mainBigram bs) ∨
      (bs.count g = bs.count (mainBigram bs) ∧
       lexLe (mainBigram bs) g = true) := by
  rw [mainBigram]
  split
  · next hv => exact absurd hv (vocabOf_ne_nil hne)
  · next f fs hv =>
    have hp : List.Pairwise (fun a b => lexLt a b = true) (f :: fs) := by
      have := vocabOf_pairwise bs
      rw [hv] at this
      exact this
    obtain ⟨hmem, hdom⟩ := argmaxCount_spec bs fs f hp
    constructor
    · have : argmaxCount bs fs f ∈ vocabOf bs := by rw [hv]; exact hmem
      exact mem_vocabOf.mp this
    · intro g hg
      have hgv : g ∈ f :: fs := by
        have : g ∈ vocabOf bs := mem_vocabOf.mpr hg
        rw [hv] at this
        exact this
      exact hdom g hgv

/-- Inversion of a successful `extract_keywords_and_topic` run: either the
input was the empty message list, or every stage went through. -/
theorem extract_ok_inv {texts : List (List Char)} {top_k : Nat}
    {kws : List (List Char)} {topic : List Char}
    (h : extract_keywords_and_topic texts top_k = Except.ok (kws, topic)) :
    (texts = [] ∧ kws = [] ∧ topic = []) ∨
    (texts ≠ [] ∧ toksOf texts ≠ [] ∧
     kws = topFeatures top_k (toksOf texts) ∧
     bigramsOf (toksOf texts) ≠ [] ∧
     topic = mainBigram (bigramsOf (toksOf texts))) := by
  rw [extract_keywords_and_topic] at h
  split at h
  · next hempty =>
    left
    simp only [Except.ok.injEq, Prod.mk.injEq] at h
    exact ⟨List.isEmpty_iff.mp hempty, h.1.symm, h.2.symm⟩
  · next hempty =>
    split at h
    · exact absurd h (by simp)
    · next htoks =>
      split at h
      · exact absurd h (by simp)
      · next hbigs =>
        right
        have hb : bigramsOf (toksOf texts) ≠ [] := by
          intro hb0
          rw [hb0] at hbigs
          exact hbigs rfl
        have hpos : 0 < (bigramsOf (toksOf texts)).length :=
          List.length_pos.mpr hb
        rw [if_pos hpos] at h
        simp only [Except.ok.injEq, Prod.mk.injEq] at h
        refine ⟨?_, ?_, h.1.symm, hb, h.2.symm⟩
        · intro h0
          rw [h0] at hempty
          exact hempty rfl
        · intro h0
          rw [h0] at htoks
          exact htoks rfl

/-! Whitespace-normalisation lemmas -/

theorem runsAux_nil (keep : Char → Bool) (a : Char) (as : List Char) :
    runsAux keep [] (a :: as) = [(a :: as).reverse] := by
  rw [runsAux.eq_def]

theorem runsAux_cons (keep : Char → Bool) (c : Char) (cs acc : List Char) :
    runsAux keep (c :: cs) acc =
      if keep c then runsAux keep cs (c :: acc)
      else
        match acc with
        | [] => runsAux keep cs []
        | _ :: _ => acc.reverse :: runsAux keep cs [] := by
  rw [runsAux.eq_def]

theorem runsAux_good (keep : Char → Bool) :
    ∀ (s acc : List Char), acc.all keep = true →
      ∀ r ∈ runsAux keep s acc, r ≠ [] ∧ r.all keep = true := by
  intro s
  induction s with
  | nil =>
    intro acc hacc r hr
    cases acc with
    | nil => simp [runsAux] at hr
    | cons a as =>
      rw [runsAux_nil] at hr
      rw [List.mem_singleton] at hr
      subst hr
      refine ⟨by simp, ?_⟩
      rw [List.all_reverse]
      exact hacc
  | cons c cs ih =>
    intro acc hacc r hr
    by_cases hk : keep c = true
    · rw [runsAux_cons, if_pos hk] at hr
      exact ih (c :: acc) (by simp [List.all_cons, hk, hacc]) r hr
    · cases acc with
      | nil =>
        rw [runsAux_cons, if_neg hk] at hr
        exact ih [] rfl r hr
      | cons a as =>
        rw [runsAux_cons, if_neg hk] at hr
        rcases List.mem_cons.mp hr with heq | hr'
        · subst heq
          refine ⟨by simp, ?_⟩
          rw [List.all_reverse]
          exact hacc
        · exact ih [] rfl r hr'

theorem runsAux_append_kept (keep : Char → Bool) :
    ∀ (w s acc : List Char), w.all keep = true →
      runsAux keep (w ++ s) acc = runsAux keep s (w.reverse ++ acc) := by
  intro w
  induction w with
  | nil =>
    intro s acc _
    simp
  | cons c w' ih =>
    intro s acc hall
    simp only [List.all_cons, Bool.and_eq_true] at hall
    rw [List.cons_append, runsAux_cons, if_pos hall.1, ih s (c :: acc) hall.2]
    simp [List.reverse_cons, List.append_assoc]

theorem runsAux_sep (keep : Char → Bool) {c : Char} (hc : keep c = false)
    (s : List Char) (a : Char) (as : List Char) :
    runsAux keep (c :: s) (a :: as) = (a :: as).reverse :: runsAux keep s [] := by
  rw [runsAux_cons, if_neg (by simp [hc])]

theorem pySplit_joinSpaces :
    ∀ ws : List (List Char),
      (∀ w ∈ ws, w ≠ [] ∧ w.all (fun c => !isWS c) = true) →
      pySplit (joinSpaces ws) = ws := by
  intro ws
  induction ws with
  | nil => intro _; rfl
  | cons w ws' ih =>
    intro hgood
    obtain ⟨hw, hall⟩ := hgood w (List.mem_cons_self _ _)
    cases ws' with
    | nil =>
      show pySplit (joinSpaces [w]) = [w]
      have h1 : joinSpaces [w] = w := rfl
      rw [h1, pySplit, runs]
      calc runsAux (fun c => !isWS c) w []
          = runsAux (fun c => !isWS c) (w ++ []) [] := by rw [List.append_nil]
        _ = runsAux (fun c => !isWS c) [] (w.reverse ++ []) :=
            runsAux_append_kept _ w [] [] hall
        _ = [w] := by
            rw [List.append_nil]
            cases hwr : w.reverse with
            | nil => exact absurd (List.reverse_eq_nil_iff.mp hwr) hw
            | cons a as =>
              show [(a :: as).reverse] = [w]
              rw [← hwr, List.reverse_reverse]
    | cons w2 ws'' =>
      have h1 : joinSpaces (w :: w2 :: ws'') = w ++ ' ' :: joinSpaces (w2 :: ws'') := rfl
      rw [h1, pySplit, runs]
      calc runsAux (fun c => !isWS c) (w ++ ' ' :: joinSpaces (w2 :: ws'')) []
          = runsAux (fun c => !isWS c) (' ' :: joinSpaces (w2 :: ws''))
              (w.reverse ++ []) := runsAux_append_kept _ w _ [] hall
        _ = w :: pySplit (joinSpaces (w2 :: ws'')) := by
            rw [List.append_nil]
            cases hwr : w.reverse with
            | nil => exact absurd (List.reverse_eq_nil_iff.mp hwr) hw
            | cons a as =>
              rw [runsAux_sep _ (by simp [isWS]) _ a as, ← hwr,
                List.reverse_reverse]
              rfl
        _ = w :: w2 :: ws'' := by
            rw [ih fun x hx => hgood x (List.mem_cons_of_mem w hx)]

theorem pySplit_good (s : List Char) :
    ∀ w ∈ pySplit s, w ≠ [] ∧ w.all (fun c => !isWS c) = true :=
  runsAux_good _ s [] rfl

theorem normalizeWS_idem (s : List Char) :
    normalizeWS (normalizeWS s) = normalizeWS s := by
  show joinSpaces (pySplit (joinSpaces (pySplit s))) = joinSpaces (pySplit s)
  rw [pySplit_joinSpaces (pySplit s) (pySplit_good s)]

/-! Segmentation lemmas -/

theorem findTag_none : ∀ {s : List Char},
    containsSeq userTag s = false → containsSeq aiTag s = false →
    findTag s = none := by
  intro s
  induction s with
  | nil =>
    intro _ _
    rfl
  | cons c cs ih =>
    intro hu ha
    rw [containsSeq] at hu ha
    simp only [Bool.or_eq_false_iff] at hu ha
    rw [findTag]
    have htag : tagAt (c :: cs) = none := by
      rw [tagAt, if_neg (by simp [hu.1]), if_neg (by simp [ha.1])]
    rw [htag]
    exact ih hu.2 ha.2

theorem findBlocks_eq_nil {s : List Char} (h : findTag s = none) :
    findBlocks s = [] := by
  rw [findBlocks, findBlocksF, h]

/-! Speaker-grouping lemmas -/

theorem filterMap_if_true (l : List (Bool × List Char)) :
    l.filterMap (fun b => if b.1 then some b.2 else none) =
      (l.filter (fun b => b.1)).map (fun b => b.2) := by
  induction l with
  | nil => rfl
  | cons b bs ih =>
    by_cases hb : b.1 <;>
      simp [List.filterMap_cons, List.filter_cons, hb, ih]

theorem filterMap_if_false (l : List (Bool × List Char)) :
    l.filterMap (fun b => if b.1 then none else some b.2) =
      (l.filter (fun b => !b.1)).map (fun b => b.2) := by
  induction l with
  | nil => rfl
  | cons b bs ih =>
    by_cases hb : b.1 <;>
      simp [List.filterMap_cons, List.filter_cons, hb, ih]

theorem filterMap_speaker_perm (l : List (Bool × List Char)) :
    List.Perm
      (l.filterMap (fun b => if b.1 then some b.2 else none) ++
       l.filterMap (fun b => if b.1 then none else some b.2))
      (l.map (fun b => b.2)) := by
  induction l with
  | nil => simp
  | cons b bs ih =>
    by_cases hb : b.1
    · simp only [List.filterMap_cons, hb, if_pos, List.map_cons,
        List.cons_append]
      exact ih.cons b.2
    · simp only [List.filterMap_cons, hb, if_neg, Bool.false_eq_true,
        List.map_cons]
      refine List.Perm.trans List.perm_middle ?_
      exact ih.cons b.2

/-! The claims -/

/-- C1 counterexample: on the single message `"zz zz aa"` the extractor
returns the keyword list `["aa", "zz"]` although `aa` occurs once and `zz`
twice — the first element has strictly *smaller* raw frequency than the
second, so the returned list is not ordered by descending term frequency as
the claim states. -/
theorem c1_counterexample :
    extract_keywords_and_topic ["zz zz aa".data] 5 =
      Except.ok (["aa".data, "zz".data], "zz aa".data) ∧
    (toksOf ["zz zz aa".data]).count "aa".data <
      (toksOf ["zz zz aa".data]).count "zz".data :=
  ⟨rfl, by decide⟩

/-- C1 (amended): the keyword list contains at most `k` terms, namely the
`k` highest-raw-frequency terms of the combined text (on a frequency tie the
lexicographically smaller term is selected), but the list itself is returned
in ascending lexicographic order, not in frequency order: every selected
term beats every unselected surviving token in frequency, or ties it and is
lexicographically no greater. -/
theorem c1_keywords_top_frequency (texts : List (List Char)) (k : Nat)
    (kws : List (List Char)) (topic : List Char)
    (h : extract_keywords_and_topic texts k = Except.ok (kws, topic)) :
    kws.length ≤ k ∧
    List.Pairwise (fun a b => lexLt a b = true) kws ∧
    (∀ w ∈ kws, w ∈ toksOf texts) ∧
    ∀ w ∈ kws, ∀ v ∈ toksOf texts, v ∉ kws →
      (toksOf texts).count v < (toksOf texts).count w ∨
      ((toksOf texts).count w = (toksOf texts).count v ∧ lexLe w v = true) := by
  rcases extract_ok_inv h with ⟨_, hkws, _⟩ | ⟨_, _, hkws, _, _⟩
  · subst hkws
    refine ⟨Nat.zero_le k, List.Pairwise.nil, ?_, ?_⟩
    · intro w hw
      exact absurd hw (List.not_mem_nil w)
    · intro w hw
      exact absurd hw (List.not_mem_nil w)
  · subst hkws
    refine ⟨topFeatures_length k _, topFeatures_sorted k _,
      fun w hw => topFeatures_subset hw, ?_⟩
    intro w hw v hv hnv
    have hr := topFeatures_dominates hw hv hnv
    simpa only [rankLe, Bool.or_eq_true, Bool.and_eq_true,
      decide_eq_true_eq, beq_iff_eq] using hr

/-- C1 witness: the amended statement instantiated on `["zz zz aa"]`. -/
theorem c1_keywords_top_frequency_witness :
    extract_keywords_and_topic ["zz zz aa".data] 5 =
      Except.ok (["aa".data, "zz".data], "zz aa".data) ∧
    (["aa".data, "zz".data].length ≤ 5 ∧
     List.Pairwise (fun a b => lexLt a b = true) ["aa".data, "zz".data] ∧
     (∀ w ∈ ["aa".data, "zz".data], w ∈ toksOf ["zz zz aa".data]) ∧
     ∀ w ∈ ["aa".data, "zz".data], ∀ v ∈ toksOf ["zz zz aa".data],
       v ∉ ["aa".data, "zz".data] →
       (toksOf ["zz zz aa".data]).count v <
         (toksOf ["zz zz aa".data]).count w ∨
       ((toksOf ["zz zz aa".data]).count w =
         (toksOf ["zz zz aa".data]).count v ∧ lexLe w v = true)) :=
  ⟨rfl, c1_keywords_top_frequency ["zz zz aa".data] 5
    ["aa".data, "zz".data] "zz aa".data rfl⟩

/-- C2 (code bug): a non-empty input whose combined text contains only
stopwords (`"the and of it"`), or only disqualified tokens (`"x1 y2 9 a"`),
does not yield an empty keyword list — sklearn's `TfidfVectorizer.fit`
raises `ValueError("empty vocabulary ...")`, which
`extract_keywords_and_topic` does not catch. -/
theorem c2_only_stopwords_raises :
    extract_keywords_and_topic ["the and of it".data] 5 =
      Except.error "empty vocabulary" ∧
    extract_keywords_and_topic ["x1 y2 9 a".data] 5 =
      Except.error "empty vocabulary" :=
  ⟨rfl, rfl⟩

/-- C3 (code bug): on a combined text with exactly one surviving token
(`"mountains"`), the bigram `CountVectorizer.fit_transform` raises
`ValueError("empty vocabulary ...")` before the code's own fallback
(`keywords[0] if keywords else ''`, task.py line 84) can run, so the topic
`"mountains"` claimed by the spec is never returned. -/
theorem c3_single_token_raises :
    extract_keywords_and_topic ["mountains".data] 5 =
      Except.error "empty vocabulary" :=
  rfl

/-- C4 counterexample: on `"User: ab AI: cd User: ef"` the text list handed
to the extractor is `["ab", "ef", "cd"]` — all User messages first, then all
AI messages — and not the original segmented order `["ab", "cd", "ef"]`,
which segmentation does not preserve. -/
theorem c4_counterexample :
    combinedTexts (parse_chat_log "User: ab AI: cd User: ef".data) ≠
      blockOrderTexts "User: ab AI: cd User: ef".data ∧
    combinedTexts (parse_chat_log "User: ab AI: cd User: ef".data) =
      ["ab".data, "ef".data, "cd".data] ∧
    blockOrderTexts "User: ab AI: cd User: ef".data =
      ["ab".data, "cd".data, "ef".data] :=
  ⟨by decide, by decide, by decide⟩

/-- C4 (amended): segmentation returns the utterances grouped by speaker,
each group keeping its original relative order (the stable per-speaker
projection of the in-order block list); the text list handed to the
extractor is all User utterances followed by all AI utterances, which is a
permutation of — but in general not equal to — the original segmented
order. -/
theorem c4_combined_grouped_not_in_order (content : List Char) :
    (parse_chat_log content).1 =
      ((cleanBlocks content).filter (fun b => b.1)).map (fun b => b.2) ∧
    (parse_chat_log content).2 =
      ((cleanBlocks content).filter (fun b => !b.1)).map (fun b => b.2) ∧
    List.Perm (combinedTexts (parse_chat_log content))
      (blockOrderTexts content) :=
  ⟨filterMap_if_true _, filterMap_if_false _,
    filterMap_speaker_perm (cleanBlocks content)⟩

/-- C5 counterexample: the token pattern `\b[a-zA-Z]{2,}\b` requires a word
boundary on both sides, so a digit adjacent to an alphabetic run does *not*
leave the run as a token — `"ab1 cd"` tokenises to `["cd"]`, not to the
`["ab", "cd"]` the claim's reading (digits as mere token boundaries)
produces. -/
theorem c5_counterexample :
    tokenize "ab1 cd".data = ["cd".data] ∧
    specTokenize "ab1 cd".data = ["ab".data, "cd".data] :=
  ⟨by decide, by decide⟩

/-- C5 (amended): tokens are the maximal word-character runs that consist
solely of at least two alphabetic characters after lowercasing (a run
touching a digit or underscore is discarded entirely); consequently the
keyword list never holds more than `k` terms and never holds a stopword, a
token shorter than 2 characters, or a non-alphabetic token. -/
theorem c5_token_discipline (texts : List (List Char)) (k : Nat)
    (kws : List (List Char)) (topic : List Char)
    (h : extract_keywords_and_topic texts k = Except.ok (kws, topic)) :
    kws.length ≤ k ∧
    ∀ w ∈ kws, 2 ≤ w.length ∧ w.all isAlpha = true ∧ w ∉ STOP_WORDS := by
  rcases extract_ok_inv h with ⟨_, hkws, _⟩ | ⟨_, _, hkws, _, _⟩
  · subst hkws
    refine ⟨Nat.zero_le k, ?_⟩
    intro w hw
    exact absurd hw (List.not_mem_nil w)
  · subst hkws
    refine ⟨topFeatures_length k _, ?_⟩
    intro w hw
    have hmem : w ∈ toksOf texts := topFeatures_subset hw
    rw [toksOf, filterStop] at hmem
    obtain ⟨htok, hstop⟩ := List.mem_filter.mp hmem
    rw [tokenize] at htok
    obtain ⟨_, hpred⟩ := List.mem_filter.mp htok
    simp only [Bool.and_eq_true, decide_eq_true_eq] at hpred
    refine ⟨hpred.1, hpred.2, ?_⟩
    simpa using hstop

/-- C5 witness: the amended statement instantiated on
`["good code good code runs"]`. -/
theorem c5_token_discipline_witness :
    extract_keywords_and_topic ["good code good code runs".data] 5 =
      Except.ok (["code".data, "good".data, "runs".data],
        "good code".data) ∧
    (["code".data, "good".data, "runs".data].length ≤ 5 ∧
     ∀ w ∈ ["code".data, "good".data, "runs".data],
       2 ≤ w.length ∧ w.all isAlpha = true ∧ w ∉ STOP_WORDS) :=
  ⟨rfl, c5_token_discipline ["good code good code runs".data] 5
    ["code".data, "good".data, "runs".data] "good code".data rfl⟩

/-- C6: whenever extraction succeeds on a non-empty input, the returned
topic is one of the adjacent two-token windows of the stop-word-filtered
token stream, it attains the maximal occurrence count among those windows,
and on a tie it is the lexicographically least such window — so a strictly
dominant repeated two-word phrase is returned exactly. -/
theorem c6_topic_is_max_bigram (texts : List (List Char)) (k : Nat)
    (kws : List (List Char)) (topic : List Char)
    (hne : texts ≠ [])
    (h : extract_keywords_and_topic texts k = Except.ok (kws, topic)) :
    topic ∈ bigramsOf (toksOf texts) ∧
    ∀ b ∈ bigramsOf (toksOf texts),
      (bigramsOf (toksOf texts)).count b <
        (bigramsOf (toksOf texts)).count topic ∨
      ((bigramsOf (toksOf texts)).count b =
        (bigramsOf (toksOf texts)).count topic ∧ lexLe topic b = true) := by
  rcases extract_ok_inv h with ⟨htexts, _, _⟩ | ⟨_, _, _, hbig, htopic⟩
  · exact absurd htexts hne
  · subst htopic
    exact mainBigram_spec hbig

/-- C6 witness: on `["alpha beta alpha beta gamma"]` the dominant repeated
phrase `"alpha beta"` (2 occurrences) is returned exactly. -/
theorem c6_topic_is_max_bigram_witness :
    (["alpha beta alpha beta gamma".data] ≠ ([] : List (List Char)) ∧
     extract_keywords_and_topic ["alpha beta alpha beta gamma".data] 5 =
       Except.ok (["alpha".data, "beta".data, "gamma".data],
         "alpha beta".data)) ∧
    ("alpha beta".data ∈ bigramsOf (toksOf ["alpha beta alpha beta gamma".data]) ∧
     ∀ b ∈ bigramsOf (toksOf ["alpha beta alpha beta gamma".data]),
       (bigramsOf (toksOf ["alpha beta alpha beta gamma".data])).count b <
         (bigramsOf (toksOf ["alpha beta alpha beta gamma".data])).count
           "alpha beta".data ∨
       ((bigramsOf (toksOf ["alpha beta alpha beta gamma".data])).count b =
         (bigramsOf (toksOf ["alpha beta alpha beta gamma".data])).count
           "alpha beta".data ∧ lexLe "alpha beta".data b = true)) :=
  ⟨⟨by decide, rfl⟩,
   c6_topic_is_max_bigram ["alpha beta alpha beta gamma".data] 5
     ["alpha".data, "beta".data, "gamma".data] "alpha beta".data
     (by decide) rfl⟩

/-- C7 counterexample: on the mountains transcript the pipeline's topic is
`"hiking mountains"` — the stopwords `the` and `in` are removed before the
two-token windows are formed, so neither `"the mountains"` nor
`"in mountains"` can ever be produced, contradicting the claim. -/
theorem c7_counterexample :
    pipelineExtract mountainsInput =
      Except.ok (["agree".data, "beautiful".data, "exercise".data,
        "hiking".data, "mountains".data], "hiking mountains".data) ∧
    "hiking mountains".data ≠ "the mountains".data ∧
    "hiking mountains".data ≠ "in mountains".data :=
  ⟨rfl, by decide, by decide⟩

/-- C7 (amended): on the mountains transcript the pipeline returns the
keyword list `["agree", "beautiful", "exercise", "hiking", "mountains"]`
and the topic `"hiking mountains"`, the dominant bigram of the
stop-word-filtered token stream. -/
theorem c7_mountains_topic :
    pipelineExtract mountainsInput =
      Except.ok (["agree".data, "beautiful".data, "exercise".data,
        "hiking".data, "mountains".data], "hiking mountains".data) :=
  rfl

/-- C8: segmentation never fails on degenerate text: every input containing
no `User:` and no `AI:` marker (the empty text included) parses to an empty
utterance sequence for both speakers. -/
theorem c8_segment_no_markers (content : List Char)
    (hu : containsSeq userTag content = false)
    (ha : containsSeq aiTag content = false) :
    parse_chat_log content = ([], []) := by
  have h := findBlocks_eq_nil (findTag_none hu ha)
  rw [parse_chat_log, cleanBlocks, h]
  rfl

/-- C8 witness: the marker-free text `"hello world\nno markers here"`
parses to no utterances. -/
theorem c8_segment_no_markers_witness :
    (containsSeq userTag "hello world\nno markers here".data = false ∧
     containsSeq aiTag "hello world\nno markers here".data = false) ∧
    parse_chat_log "hello world\nno markers here".data = ([], []) :=
  ⟨⟨by decide, by decide⟩,
   c8_segment_no_markers "hello world\nno markers here".data
     (by decide) (by decide)⟩

/-- C9: every utterance segmentation produces has non-empty,
whitespace-normalised text (so a block whose body normalises to the empty
string contributes no utterance, and normalising an utterance again changes
nothing). -/
theorem c9_utterances_normalized (content m : List Char)
    (hm : m ∈ (parse_chat_log content).1 ∨ m ∈ (parse_chat_log content).2) :
    m ≠ [] ∧ normalizeWS m = m := by
  have hmem : ∃ b ∈ cleanBlocks content, b.2 = m := by
    rcases hm with h | h
    · rw [parse_chat_log] at h
      simp only [List.mem_filterMap] at h
      obtain ⟨b, hb, hsome⟩ := h
      refine ⟨b, hb, ?_⟩
      by_cases hb1 : b.1
      · rw [if_pos hb1] at hsome
        exact Option.some.inj hsome
      · rw [if_neg hb1] at hsome
        exact absurd hsome (by simp)
    · rw [parse_chat_log] at h
      simp only [List.mem_filterMap] at h
      obtain ⟨b, hb, hsome⟩ := h
      refine ⟨b, hb, ?_⟩
      by_cases hb1 : b.1
      · rw [if_pos hb1] at hsome
        exact absurd hsome (by simp)
      · rw [if_neg hb1] at hsome
        exact Option.some.inj hsome
  obtain ⟨b, hb, hbm⟩ := hmem
  rw [cleanBlocks] at hb
  simp only [List.mem_filterMap] at hb
  obtain ⟨blk, _, hsome⟩ := hb
  by_cases he : (normalizeWS blk.2).isEmpty
  · rw [if_pos he] at hsome
    exact absurd hsome (by simp)
  · rw [if_neg he] at hsome
    have hbe : b = (blk.1, normalizeWS blk.2) := (Option.some.inj hsome).symm
    have hb2 : b.2 = normalizeWS blk.2 := by rw [hbe]
    rw [← hbm, hb2]
    constructor
    · intro h0
      exact he (by rw [h0]; rfl)
    · exact normalizeWS_idem blk.2

/-- C9 witness: the utterance `"hi there"` produced from the block
`"User:  hi \n there"` is non-empty and already normalised. -/
theorem c9_utterances_normalized_witness :
    ("hi there".data ∈ (parse_chat_log "User:  hi \n there\nAI: yo".data).1 ∨
     "hi there".data ∈ (parse_chat_log "User:  hi \n there\nAI: yo".data).2) ∧
    ("hi there".data ≠ [] ∧
     normalizeWS "hi there".data = "hi there".data) :=
  ⟨Or.inl (by decide),
   c9_utterances_normalized "User:  hi \n there\nAI: yo".data
     "hi there".data (Or.inl (by decide))⟩

/-- C10: whenever extraction succeeds, the returned keyword list is strictly
ascending in lexicographic order of the term strings, independent of the
terms' frequencies. -/
theorem c10_keywords_alphabetical (texts : List (List Char)) (k : Nat)
    (kws : List (List Char)) (topic : List Char)
    (h : extract_keywords_and_topic texts k = Except.ok (kws, topic)) :
    List.Pairwise (fun a b => lexLt a b = true) kws := by
  rcases extract_ok_inv h with ⟨_, hkws, _⟩ | ⟨_, _, hkws, _, _⟩
  · subst hkws
    exact List.Pairwise.nil
  · subst hkws
    exact topFeatures_sorted k _

/-- C10 witness: on `["zz yy zz"]` the keywords come back as
`["yy", "zz"]`, in ascending lexicographic order although `zz` is the more
frequent term. -/
theorem c10_keywords_alphabetical_witness :
    extract_keywords_and_topic ["zz yy zz".data] 5 =
      Except.ok (["yy".data, "zz".data], "yy zz".data) ∧
    List.Pairwise (fun a b => lexLt a b = true) ["yy".data, "zz".data] :=
  ⟨rfl, c10_keywords_alphabetical ["zz yy zz".data] 5
    ["yy".data, "zz".data] "yy zz".data rfl⟩

end ChatLog
